import Mathlib

/-!
Verification of the range-based numeric remapping engine of `src/2023/day-5/src/main.rs`.

The Rust code is embedded shallowly:
* `u64` is modelled as `Nat`.  Every subtraction in the source is guarded so that the
  minuend is at least the subtrahend, hence `Nat` truncated subtraction agrees with
  `u64` subtraction on the paths exercised here; the claims under study are about the
  interval logic, not about 64-bit wraparound.
* `Range<u64>` becomes the structure `Interval` with fields `start`/`stop`
  (`stop` stands for Rust's `end`, which is a Lean keyword).
* `Option<Box<RangeTreeNode>>` becomes the inductive `RangeTree`, whose `nil`
  constructor stands for Rust's `None` child slot.
* `HashMap<ValueKind, RangeMap>` becomes a function `ValueKind → Option RangeMap`;
  `insert` overwrites the entry of the key, exactly as `HashMap::insert` does.
* the two `while` loops of `NumberMapper` (`map` and `map_range`) are embedded as
  fuel-indexed step functions returning `Option result`, where the outer `none`
  means "the loop is still running after `fuel` iterations".
-/

namespace Day5

/-- The eight category labels of the puzzle (Rust enum `ValueKind`). -/
inductive ValueKind where
  | seed | soil | fertilizer | water | light | temperature | humidity | location
deriving DecidableEq

/-- Rust struct `Value`: a `(category, number)` pair. -/
structure Value where
  kind : ValueKind
  number : Nat
deriving DecidableEq

/-- Rust `Range<u64>`: the half-open interval `[start, stop)`. -/
structure Interval where
  start : Nat
  stop : Nat
deriving DecidableEq

/-- Rust struct `RangePair`: a translation rule from `source` onto `target`. -/
structure RangePair where
  source : Interval
  target : Interval
deriving DecidableEq

/-- `RangePair::subrange`: maps a sub-interval of `source` into target space by the
rule's constant offset; `none` when `range` is not contained in `source`. -/
def RangePair.subrange (p : RangePair) (range : Interval) : Option RangePair :=
  if p.source.start ≤ range.start ∧ p.source.stop ≥ range.stop then
    some { source := range,
           target := { start := p.target.start + (range.start - p.source.start),
                       stop := p.target.start + (range.start - p.source.start)
                               + (range.stop - range.start) } }
  else
    none

/-- `ranges_overlap` of the source: the loose half-open overlap test. -/
def ranges_overlap (r1 r2 : Interval) : Bool :=
  r1.start ≤ r2.stop && r2.start ≤ r1.stop

/-- `range_intersection` of the source. -/
def range_intersection (r1 r2 : Interval) : Option Interval :=
  if ranges_overlap r1 r2 then
    some { start := max r1.start r2.start, stop := min r1.stop r2.stop }
  else
    none

/-- Rust struct `RangeTreeNode`; `nil` stands for an absent (`None`) node. -/
inductive RangeTree where
  | nil : RangeTree
  | node (range : RangePair) (max : Nat) (left right : RangeTree) : RangeTree
deriving DecidableEq

/-- `RangeTreeNode::new`: a leaf whose `max` is its own source end. -/
def RangeTree.new (range : RangePair) : RangeTree :=
  .node range range.source.stop .nil .nil

/-- `RangeTreeNode::insert`: update `max`, then descend left on strictly smaller
source start, else right; an empty child slot receives a fresh leaf. -/
def RangeTree.insert : RangeTree → RangePair → RangeTree
  | .nil, r => RangeTree.new r
  | .node rg mx l rt, r =>
    let mx2 := if mx < r.source.stop then r.source.stop else mx
    if r.source.start < rg.source.start then
      .node rg mx2 (l.insert r) rt
    else
      .node rg mx2 l (rt.insert r)

/-- Whether a child slot is occupied (Rust `Option::is_some` on a child). -/
def RangeTree.isNode : RangeTree → Bool
  | .nil => false
  | .node _ _ _ _ => true

/-- The `max` field of a node (irrelevant default `0` for an absent node). -/
def RangeTree.maxEnd : RangeTree → Nat
  | .nil => 0
  | .node _ mx _ _ => mx

/-- `RangeTreeNode::find_overlapping`: single descent guided by the `max` bound;
after descending left the right subtree is abandoned. -/
def RangeTree.find_overlapping : RangeTree → RangePair → Option RangePair
  | .nil, _ => none
  | .node rg _ l rt, q =>
    if ranges_overlap rg.source q.source then some rg
    else if l.isNode ∧ q.source.start ≤ l.maxEnd then l.find_overlapping q
    else rt.find_overlapping q

/-- `RangeTreeNode::find_intersections`: collect, over every node whose stored
source overlaps the query, the intersection mapped through `subrange`; a child
subtree is visited only when its `max` reaches the query's start. -/
def RangeTree.find_intersections : RangeTree → Interval → List RangePair
  | .nil, _ => []
  | .node rg _ l rt, q =>
    (match range_intersection rg.source q with
     | some i =>
       match rg.subrange i with
       | some s => [s]
       | none => []
     | none => []) ++
    ((if l.isNode ∧ q.start ≤ l.maxEnd then l.find_intersections q else []) ++
     (if rt.isNode ∧ q.start ≤ rt.maxEnd then rt.find_intersections q else []))

/-- Rust struct `RangeMap`: one category-to-category translation table.
`range_tree = RangeTree.nil` models Rust's `range_tree == None`. -/
structure RangeMap where
  source_kind : ValueKind
  target_kind : ValueKind
  ranges : List RangePair
  range_tree : RangeTree

/-- `RangeMap::new`: stores the rule list and builds the interval tree by
inserting every rule in input order (the first rule becomes the root). -/
def RangeMap.new (source_kind target_kind : ValueKind) (ranges : List RangePair) :
    RangeMap :=
  { source_kind := source_kind, target_kind := target_kind, ranges := ranges,
    range_tree := ranges.foldl RangeTree.insert RangeTree.nil }

/-- `RangeMap::value_for`: scalar lookup; `none` on category mismatch, first
matching rule's offset applied, identity passthrough when no rule matches. -/
def RangeMap.value_for (m : RangeMap) (v : Value) : Option Value :=
  if v.kind ≠ m.source_kind then none
  else
    match m.ranges.find? (fun p => p.source.start ≤ v.number && v.number < p.source.stop) with
    | some p => some { kind := m.target_kind,
                       number := p.target.start + (v.number - p.source.start) }
    | none => some { kind := m.target_kind, number := v.number }

/-- The body of the `while let` loop of `RangeMap::ranges_for`: emit each
intersection's target, and between consecutive intersections emit the gap. -/
def emitTargets : List RangePair → List Interval
  | [] => []
  | [x] => [x.target]
  | x :: y :: rest =>
    x.target ::
      ((if x.source.stop < y.source.start then [⟨x.source.stop, y.source.start⟩] else []) ++
       emitTargets (y :: rest))

/-- `RangeMap::ranges_for`: sort the intersections by source start, then emit
them with identity gap-fill before, between and after (empty result when the
tree is absent or nothing intersects).  Rust's `sort_by_key` is a stable sort;
any two stable sorts agree pointwise, and `List.insertionSort` is the stable
sort that the kernel can evaluate. -/
def RangeMap.ranges_for (m : RangeMap) (range : Interval) : List Interval :=
  let intersections :=
    (m.range_tree.find_intersections range).insertionSort
      (fun a b => a.source.start ≤ b.source.start)
  match intersections with
  | [] => []
  | first :: _ =>
    (if range.start < first.source.start then [⟨range.start, first.source.start⟩] else []) ++
    (emitTargets intersections ++
     (match intersections.getLast? with
      | some last => if last.source.stop < range.stop then [⟨last.source.stop, range.stop⟩] else []
      | none => []))

/-- Rust struct `NumberMapper`: category maps keyed by their source category. -/
structure NumberMapper where
  maps_by_source : ValueKind → Option RangeMap

/-- `NumberMapper::default`: the empty table. -/
def NumberMapper.default : NumberMapper := ⟨fun _ => none⟩

/-- `NumberMapper::insert`: register a map under its source category. -/
def NumberMapper.insert (nm : NumberMapper) (m : RangeMap) : NumberMapper :=
  ⟨fun k => if k = m.source_kind then some m else nm.maps_by_source k⟩

/-- Fuel-indexed run of the `while` loop of `NumberMapper::map`.  Result
`some res` is the loop's exit value (`res = none` is Rust's `None` return);
the outer `none` means the loop is still running after `fuel` iterations. -/
def NumberMapper.mapRun (nm : NumberMapper) : Nat → Value → ValueKind → Option (Option Value)
  | fuel, v, target_kind =>
    if v.kind = target_kind then some (some v)
    else
      match fuel with
      | 0 => none
      | f + 1 =>
        match nm.maps_by_source v.kind with
        | none => some none
        | some range_map =>
          match range_map.value_for v with
          | none => some none
          | some w => nm.mapRun f w target_kind

/-- Fuel-indexed run of the `while` loop of `NumberMapper::map_range`.  Note the
faithful embedding of the source's `else { continue }`: when no map is
registered for the current category the loop retries with unchanged state. -/
def NumberMapper.mapRangeRun (nm : NumberMapper) :
    Nat → List Interval → ValueKind → ValueKind → Option (List Interval)
  | fuel, mapped_ranges, current_kind, target_kind =>
    if mapped_ranges = [] ∨ current_kind = target_kind then some mapped_ranges
    else
      match fuel with
      | 0 => none
      | f + 1 =>
        match nm.maps_by_source current_kind with
        | none => nm.mapRangeRun f mapped_ranges current_kind target_kind
        | some range_map =>
          nm.mapRangeRun f (mapped_ranges.flatMap range_map.ranges_for)
            range_map.target_kind target_kind

/-!  Specification-side helper definitions used to state the claims. -/

/-- All rules stored in a tree, in the preorder (node, left, right) in which
`find_intersections` visits them. -/
def RangeTree.toList : RangeTree → List RangePair
  | .nil => []
  | .node rg _ l rt => rg :: (l.toList ++ rt.toList)

/-- The augmentation invariant: at every node, the `max` field equals the
maximum `source.stop` over all rules of that node's subtree (stated as: it is
an upper bound and it is attained). -/
def RangeTree.maxInv : RangeTree → Prop
  | .nil => True
  | .node rg mx l rt =>
    (∀ p ∈ rg :: (l.toList ++ rt.toList), p.source.stop ≤ mx)
    ∧ (∃ p ∈ rg :: (l.toList ++ rt.toList), p.source.stop = mx)
    ∧ l.maxInv ∧ rt.maxInv

/-- The search-order invariant: left subtree strictly smaller `source.start`,
right subtree greater or equal. -/
def RangeTree.bstInv : RangeTree → Prop
  | .nil => True
  | .node rg _ l rt =>
    (∀ p ∈ l.toList, p.source.start < rg.source.start)
    ∧ (∀ p ∈ rt.toList, rg.source.start ≤ p.source.start)
    ∧ l.bstInv ∧ rt.bstInv

/-- A tree built the only way the program builds one: a root node from the
first rule (`RangeTreeNode::new`) followed by a sequence of `insert`s. -/
def buildTree (r0 : RangePair) (rs : List RangePair) : RangeTree :=
  rs.foldl RangeTree.insert (RangeTree.new r0)

/-- The sub-interval that an overlapping rule `p` contributes for a query `q`:
the intersection of `p.source` with `q`, mapped into target space by the rule's
constant offset. -/
def interMap (q : Interval) (p : RangePair) : RangePair :=
  { source := { start := max p.source.start q.start, stop := min p.source.stop q.stop },
    target := { start := p.target.start + (max p.source.start q.start - p.source.start),
                stop := p.target.start + (max p.source.start q.start - p.source.start)
                        + (min p.source.stop q.stop - max p.source.start q.start) } }

/-- Length of a half-open interval. -/
def rlen (r : Interval) : Nat := r.stop - r.start

/-- Total length of a list of intervals. -/
def sumLen (rs : List Interval) : Nat := (rs.map rlen).sum

/-- `Covers s S e`: the intervals of `S`, in order, tile the half-open span
`[s, e)` exactly — consecutive, ascending, no gaps and no overlaps. -/
inductive Covers : Nat → List Interval → Nat → Prop where
  | nil (s : Nat) : Covers s [] s
  | cons (r : Interval) (S : List Interval) (e : Nat) :
      r.start ≤ r.stop → Covers r.stop S e → Covers r.start (r :: S) e

/-- The source-space footprints of the intervals that `emitTargets` emits:
each intersection's source, with the same gap-fill intervals in between. -/
def emitSources : List RangePair → List Interval
  | [] => []
  | [x] => [x.source]
  | x :: y :: rest =>
    x.source ::
      ((if x.source.stop < y.source.start then [⟨x.source.stop, y.source.start⟩] else []) ++
       emitSources (y :: rest))

/-- Shorthand for the disjointness of two rules' sources. -/
def srcDisj (a b : RangePair) : Prop :=
  a.source.stop ≤ b.source.start ∨ b.source.stop ≤ a.source.start

/-- Every registered category map is keyed by its own source category — true of
every `NumberMapper` the program builds, since `insert` keys by `source_kind`. -/
def WellKeyed (nm : NumberMapper) : Prop :=
  ∀ k rm, nm.maps_by_source k = some rm → rm.source_kind = k

/-- The category walk of `NumberMapper::map` projected to categories:
`some true` = a category without a registered map is hit before the target
(dead end), `some false` = the target category is reached, `none` = still
walking after `fuel` hops. -/
def NumberMapper.deadEnds (nm : NumberMapper) : Nat → ValueKind → ValueKind → Option Bool
  | fuel, k, target_kind =>
    if k = target_kind then some false
    else
      match fuel with
      | 0 => none
      | f + 1 =>
        match nm.maps_by_source k with
        | none => some true
        | some range_map => nm.deadEnds f range_map.target_kind target_kind

/-!  Concrete inputs used by counterexamples and witnesses. -/

/-- The category map of the repository's own `interval_tree_test`. -/
def map3 : RangeMap :=
  RangeMap.new .seed .soil
    [⟨⟨100,200⟩,⟨50,150⟩⟩, ⟨⟨32,48⟩,⟨62,78⟩⟩, ⟨⟨10,20⟩,⟨90,100⟩⟩,
     ⟨⟨255,260⟩,⟨100,105⟩⟩, ⟨⟨400,420⟩,⟨800,820⟩⟩]

/-- Two disjoint rules, one of which merely touches the query `[20,40)` at its
left boundary — the loose overlap test still lets it contribute an empty
intersection, which sorts after the real one and derails the gap-filling. -/
def mapTouch : RangeMap :=
  RangeMap.new .seed .soil [⟨⟨20,30⟩,⟨120,130⟩⟩, ⟨⟨10,20⟩,⟨110,120⟩⟩]

/-- A single-rule category map (the repository's `range_map_test` data). -/
def mapSingle : RangeMap := RangeMap.new .seed .soil [⟨⟨1,2⟩,⟨4,6⟩⟩]

/-- A pipeline with the single map `mapSingle` registered under `seed`. -/
def nmSingle : NumberMapper := NumberMapper.default.insert mapSingle

/-!  Lemmas about the interval tree. -/

theorem ranges_overlap_iff (r1 r2 : Interval) :
    ranges_overlap r1 r2 = true ↔ (r1.start ≤ r2.stop ∧ r2.start ≤ r1.stop) := by
  simp [ranges_overlap]

theorem ranges_overlap_eq_false_iff (r1 r2 : Interval) :
    ranges_overlap r1 r2 = false ↔ (r2.stop < r1.start ∨ r1.stop < r2.start) := by
  simp [ranges_overlap]
  omega

theorem toList_insert (t : RangeTree) (r : RangePair) :
    (t.insert r).toList.Perm (r :: t.toList) := by
  induction t with
  | nil => simp [RangeTree.insert, RangeTree.new, RangeTree.toList]
  | node rg mx l rt ihl ihr =>
    simp only [RangeTree.insert]
    split
    · simpa only [RangeTree.toList] using
        ((ihl.append_right rt.toList).cons rg).trans (List.Perm.swap r rg _)
    · simpa only [RangeTree.toList] using
        ((ihr.append_left l.toList).cons rg).trans
          ((List.perm_middle.cons rg).trans (List.Perm.swap r rg _))

theorem toList_foldl_insert (rs : List RangePair) (t : RangeTree) :
    ((rs.foldl RangeTree.insert t).toList).Perm (rs ++ t.toList) := by
  induction rs generalizing t with
  | nil => simp
  | cons r rs ih =>
    simpa only [List.foldl_cons] using
      (ih (t.insert r)).trans (((toList_insert t r).append_left rs).trans List.perm_middle)

theorem maxInv_new (r : RangePair) : (RangeTree.new r).maxInv := by
  simp [RangeTree.new, RangeTree.maxInv, RangeTree.toList]

theorem maxInv_insert (t : RangeTree) (r : RangePair) (h : t.maxInv) :
    (t.insert r).maxInv := by
  induction t with
  | nil => exact maxInv_new r
  | node rg mx l rt ihl ihr =>
    obtain ⟨hub, hex, hl, hr⟩ := h
    simp only [RangeTree.insert]
    have hmx2 : mx ≤ (if mx < r.source.stop then r.source.stop else mx)
        ∧ r.source.stop ≤ (if mx < r.source.stop then r.source.stop else mx) := by
      split <;> omega
    split
    · refine ⟨?_, ?_, ihl hl, hr⟩
      · intro p hp
        rcases List.mem_cons.mp hp with h1 | h1
        · exact h1 ▸ le_trans (hub rg (by simp)) hmx2.1
        · rcases List.mem_append.mp h1 with h2 | h2
          · rcases List.mem_cons.mp ((toList_insert l r).mem_iff.mp h2) with h3 | h3
            · exact h3 ▸ hmx2.2
            · exact le_trans (hub p (by simp [h3])) hmx2.1
          · exact le_trans (hub p (by simp [h2])) hmx2.1
      · by_cases hc : mx < r.source.stop
        · refine ⟨r, ?_, by simp [hc]⟩
          have : r ∈ (l.insert r).toList := (toList_insert l r).mem_iff.mpr (by simp)
          simp [this]
        · obtain ⟨p, hp, hps⟩ := hex
          refine ⟨p, ?_, by simp [hc, hps]⟩
          rcases List.mem_cons.mp hp with h1 | h1
          · simp [h1]
          · rcases List.mem_append.mp h1 with h2 | h2
            · have : p ∈ (l.insert r).toList := (toList_insert l r).mem_iff.mpr (by simp [h2])
              simp [this]
            · simp [h2]
    · refine ⟨?_, ?_, hl, ihr hr⟩
      · intro p hp
        rcases List.mem_cons.mp hp with h1 | h1
        · exact h1 ▸ le_trans (hub rg (by simp)) hmx2.1
        · rcases List.mem_append.mp h1 with h2 | h2
          · exact le_trans (hub p (by simp [h2])) hmx2.1
          · rcases List.mem_cons.mp ((toList_insert rt r).mem_iff.mp h2) with h3 | h3
            · exact h3 ▸ hmx2.2
            · exact le_trans (hub p (by simp [h3])) hmx2.1
      · by_cases hc : mx < r.source.stop
        · refine ⟨r, ?_, by simp [hc]⟩
          have : r ∈ (rt.insert r).toList := (toList_insert rt r).mem_iff.mpr (by simp)
          simp [this]
        · obtain ⟨p, hp, hps⟩ := hex
          refine ⟨p, ?_, by simp [hc, hps]⟩
          rcases List.mem_cons.mp hp with h1 | h1
          · simp [h1]
          · rcases List.mem_append.mp h1 with h2 | h2
            · simp [h2]
            · have : p ∈ (rt.insert r).toList := (toList_insert rt r).mem_iff.mpr (by simp [h2])
              simp [this]

theorem bstInv_new (r : RangePair) : (RangeTree.new r).bstInv := by
  simp [RangeTree.new, RangeTree.bstInv, RangeTree.toList]

theorem bstInv_insert (t : RangeTree) (r : RangePair) (h : t.bstInv) :
    (t.insert r).bstInv := by
  induction t with
  | nil => exact bstInv_new r
  | node rg mx l rt ihl ihr =>
    obtain ⟨hbl, hbr, hl, hr⟩ := h
    simp only [RangeTree.insert]
    split
    next hlt =>
      refine ⟨?_, hbr, ihl hl, hr⟩
      intro p hp
      rcases List.mem_cons.mp ((toList_insert l r).mem_iff.mp hp) with h1 | h1
      · exact h1 ▸ hlt
      · exact hbl p h1
    next hge =>
      refine ⟨hbl, ?_, hl, ihr hr⟩
      intro p hp
      rcases List.mem_cons.mp ((toList_insert rt r).mem_iff.mp hp) with h1 | h1
      · exact h1 ▸ Nat.le_of_not_lt hge
      · exact hbr p h1

theorem maxInv_foldl_insert (rs : List RangePair) (t : RangeTree) (h : t.maxInv) :
    (rs.foldl RangeTree.insert t).maxInv := by
  induction rs generalizing t with
  | nil => exact h
  | cons r rs ih => exact ih (t.insert r) (maxInv_insert t r h)

theorem bstInv_foldl_insert (rs : List RangePair) (t : RangeTree) (h : t.bstInv) :
    (rs.foldl RangeTree.insert t).bstInv := by
  induction rs generalizing t with
  | nil => exact h
  | cons r rs ih => exact ih (t.insert r) (bstInv_insert t r h)

theorem maxInv_nil : RangeTree.nil.maxInv := trivial

theorem bstInv_nil : RangeTree.nil.bstInv := trivial

theorem stop_le_maxEnd (t : RangeTree) (h : t.maxInv) :
    ∀ p ∈ t.toList, p.source.stop ≤ t.maxEnd := by
  cases t with
  | nil => simp [RangeTree.toList]
  | node rg mx l rt => exact h.1

theorem maxEnd_mem (t : RangeTree) (h : t.maxInv) (hn : t.isNode = true) :
    ∃ p ∈ t.toList, p.source.stop = t.maxEnd := by
  cases t with
  | nil => simp [RangeTree.isNode] at hn
  | node rg mx l rt => exact h.2.1

theorem isNode_of_mem (t : RangeTree) (p : RangePair) (hp : p ∈ t.toList) :
    t.isNode = true := by
  cases t with
  | nil => simp [RangeTree.toList] at hp
  | node rg mx l rt => rfl

theorem find_intersections_node_head (rg : RangePair) (q : Interval) :
    (match range_intersection rg.source q with
     | some i =>
       match rg.subrange i with
       | some s => [s]
       | none => []
     | none => ([] : List RangePair))
      = if ranges_overlap rg.source q then [interMap q rg] else [] := by
  by_cases hov : ranges_overlap rg.source q
  · have h1 : rg.source.start ≤ max rg.source.start q.start := le_max_left _ _
    have h2 : rg.source.stop ≥ min rg.source.stop q.stop := min_le_left _ _
    simp [range_intersection, hov, RangePair.subrange, h1, h2, interMap]
  · simp [range_intersection, hov]

theorem find_intersections_characterization (t : RangeTree) (q : Interval)
    (h : t.maxInv) :
    t.find_intersections q
      = (t.toList.filter (fun p => ranges_overlap p.source q)).map (interMap q) := by
  induction t with
  | nil => simp [RangeTree.find_intersections, RangeTree.toList]
  | node rg mx l rt ihl ihr =>
    obtain ⟨hub, hex, hl, hr⟩ := h
    have hchild : ∀ (c : RangeTree), c.maxInv →
        (c.maxInv →
          c.find_intersections q
            = (c.toList.filter (fun p => ranges_overlap p.source q)).map (interMap q)) →
        (if c.isNode ∧ q.start ≤ c.maxEnd then c.find_intersections q else [])
          = (c.toList.filter (fun p => ranges_overlap p.source q)).map (interMap q) := by
      intro c hc ihc
      split
      · exact ihc hc
      next hguard =>
        cases c with
        | nil => simp [RangeTree.toList]
        | node rg2 mx2 l2 r2 =>
          have hlt : mx2 < q.start := by
            by_contra hge
            exact hguard ⟨rfl, Nat.le_of_not_lt hge⟩
          have hnil : (RangeTree.node rg2 mx2 l2 r2).toList.filter
              (fun p => ranges_overlap p.source q) = [] := by
            apply List.filter_eq_nil_iff.mpr
            intro p hp
            have hle := stop_le_maxEnd _ hc p hp
            simp only [RangeTree.maxEnd] at hle
            simp only [ranges_overlap_iff]
            omega
          simp [hnil]
    simp only [RangeTree.find_intersections]
    rw [find_intersections_node_head, hchild l hl ihl, hchild rt hr ihr]
    simp only [RangeTree.toList, List.filter_cons, List.filter_append, List.map_append]
    by_cases hov : ranges_overlap rg.source q <;> simp [hov]

theorem find_overlapping_sound (t : RangeTree) (qp p : RangePair)
    (h : t.find_overlapping qp = some p) :
    p ∈ t.toList ∧ ranges_overlap p.source qp.source = true := by
  induction t with
  | nil => simp [RangeTree.find_overlapping] at h
  | node rg mx l rt ihl ihr =>
    simp only [RangeTree.find_overlapping] at h
    split at h
    next hov =>
      injection h with h2
      subst h2
      exact ⟨by simp [RangeTree.toList], hov⟩
    next hov =>
      split at h
      · obtain ⟨hm, ho⟩ := ihl h
        exact ⟨by simp [RangeTree.toList, hm], ho⟩
      · obtain ⟨hm, ho⟩ := ihr h
        exact ⟨by simp [RangeTree.toList, hm], ho⟩

theorem find_overlapping_complete (t : RangeTree) (qp : RangePair)
    (hmax : t.maxInv) (hbst : t.bstInv) (h : t.find_overlapping qp = none) :
    ∀ p ∈ t.toList, ranges_overlap p.source qp.source = false := by
  induction t with
  | nil => simp [RangeTree.toList]
  | node rg mx l rt ihl ihr =>
    obtain ⟨hub, hex, hml, hmr⟩ := hmax
    obtain ⟨hbl, hbr, hbl2, hbr2⟩ := hbst
    simp only [RangeTree.find_overlapping] at h
    split at h
    next hov => exact absurd h (by simp)
    next hov =>
      have hovrg : ranges_overlap rg.source qp.source = false :=
        eq_false_of_ne_true hov
      split at h
      next hguard =>
        have hlnone := ihl hml hbl2 h
        obtain ⟨pm, hpm, hpmstop⟩ := maxEnd_mem l hml hguard.1
        have h1 := hlnone pm hpm
        have h2 : qp.source.stop < pm.source.start := by
          rw [ranges_overlap_eq_false_iff] at h1
          have := hguard.2
          omega
        have h3 := hbl pm hpm
        intro p hp
        rcases List.mem_cons.mp hp with h4 | h4
        · exact h4 ▸ hovrg
        · rcases List.mem_append.mp h4 with h5 | h5
          · exact hlnone p h5
          · have h6 := hbr p h5
            rw [ranges_overlap_eq_false_iff]
            omega
      next hguard =>
        have hrnone := ihr hmr hbr2 h
        intro p hp
        rcases List.mem_cons.mp hp with h4 | h4
        · exact h4 ▸ hovrg
        · rcases List.mem_append.mp h4 with h5 | h5
          · have h6 := stop_le_maxEnd l hml p h5
            have h7 : l.isNode = true := isNode_of_mem l p h5
            have h8 : l.maxEnd < qp.source.start := by
              by_contra h9
              exact hguard ⟨h7, Nat.le_of_not_lt h9⟩
            rw [ranges_overlap_eq_false_iff]
            omega
          · exact hrnone p h5

/-!  Lemmas about the coverage predicate and the gap-filling emission. -/

theorem Covers.span_le {s e : Nat} {S : List Interval} (h : Covers s S e) : s ≤ e := by
  induction h with
  | nil s => exact Nat.le_refl s
  | cons r S e hr hc ih => exact le_trans hr ih

theorem Covers.append {s m e : Nat} {A B : List Interval}
    (hA : Covers s A m) (hB : Covers m B e) : Covers s (A ++ B) e := by
  revert hB
  induction hA with
  | nil s => intro hB; exact hB
  | cons r S e2 hr hc ih => intro hB; exact Covers.cons r (S ++ B) _ hr (ih hB)

theorem Covers.sumLen_eq {s e : Nat} {S : List Interval} (h : Covers s S e) :
    sumLen S = e - s := by
  induction h with
  | nil s => simp [sumLen]
  | cons r S e hr hc ih =>
    have h2 := hc.span_le
    simp only [sumLen, List.map_cons, List.sum_cons] at *
    simp only [rlen] at *
    omega

theorem emitSources_covers (x : RangePair) (xs : List RangePair) (z : RangePair)
    (hlast : (x :: xs).getLast? = some z)
    (hch : List.Chain' (fun a b => a.source.stop ≤ b.source.start) (x :: xs))
    (hwf : ∀ p ∈ x :: xs, p.source.start ≤ p.source.stop) :
    Covers x.source.start (emitSources (x :: xs)) z.source.stop := by
  induction xs generalizing x with
  | nil =>
    have hz : x = z := by simpa using hlast
    subst hz
    exact Covers.cons x.source [] _ (hwf x (by simp)) (Covers.nil _)
  | cons y ys ih =>
    have hxy : x.source.stop ≤ y.source.start := (List.chain'_cons.mp hch).1
    have hrest := ih y (by simpa using hlast) (List.chain'_cons.mp hch).2
      (fun p hp => hwf p (by simp [List.mem_cons] at hp ⊢; tauto))
    refine Covers.cons x.source _ _ (hwf x (by simp)) ?_
    by_cases hg : x.source.stop < y.source.start
    · simp only [emitSources, if_pos hg]
      exact Covers.append
        (Covers.cons ⟨x.source.stop, y.source.start⟩ [] _ (le_of_lt hg) (Covers.nil _)) hrest
    · have heq : x.source.stop = y.source.start := le_antisymm hxy (Nat.le_of_not_lt hg)
      simp only [emitSources, if_neg hg, List.nil_append]
      exact heq ▸ hrest

theorem emitTargets_lens (L : List RangePair)
    (h : ∀ p ∈ L, rlen p.target = rlen p.source) :
    (emitTargets L).map rlen = (emitSources L).map rlen := by
  induction L with
  | nil => rfl
  | cons x xs ih =>
    cases xs with
    | nil => simp [emitTargets, emitSources, h x (by simp)]
    | cons y ys =>
      simp only [emitTargets, emitSources, List.map_cons, List.map_append]
      rw [h x (by simp), ih (fun p hp => h p (by simp [List.mem_cons] at hp ⊢; tauto))]

theorem interMap_srcDisj (q : Interval) (p1 p2 : RangePair) (h : srcDisj p1 p2) :
    srcDisj (interMap q p1) (interMap q p2) := by
  rcases h with h | h
  · exact Or.inl (by
      simp only [interMap, srcDisj]
      exact le_trans (min_le_left _ _) (le_trans h (le_max_left _ _)))
  · exact Or.inr (by
      simp only [interMap, srcDisj]
      exact le_trans (min_le_left _ _) (le_trans h (le_max_left _ _)))

/-- Unfolding of `ranges_for` once the sorted intersection list and its last
element are known. -/
theorem ranges_for_eq (m : RangeMap) (q : Interval) (x z : RangePair)
    (xs : List RangePair)
    (hL : (m.range_tree.find_intersections q).insertionSort
        (fun a b => a.source.start ≤ b.source.start) = x :: xs)
    (hz : (x :: xs).getLast? = some z) :
    m.ranges_for q
      = (if q.start < x.source.start then [⟨q.start, x.source.start⟩] else []) ++
        (emitTargets (x :: xs) ++
         (if z.source.stop < q.stop then [⟨z.source.stop, q.stop⟩] else [])) := by
  simp only [RangeMap.ranges_for]
  rw [hL, hz]

/-- The central structural lemma behind the conservation/coverage claim: under
disjoint rule sources, strict (non-boundary) overlaps only, and at least one
overlapping rule, `ranges_for` emits target intervals whose lengths match, in
order, a gapless ascending decomposition of the query. -/
theorem ranges_for_covers (src tgt : ValueKind) (rules : List RangePair) (q : Interval)
    (hdisj : rules.Pairwise srcDisj)
    (hstrict : ∀ p ∈ rules, ranges_overlap p.source q = true →
        max p.source.start q.start < min p.source.stop q.stop)
    (hsome : ∃ p ∈ rules, ranges_overlap p.source q = true) :
    ∃ S : List Interval, Covers q.start S q.stop ∧
      ((RangeMap.new src tgt rules).ranges_for q).map rlen = S.map rlen := by
  classical
  set t := rules.foldl RangeTree.insert RangeTree.nil with ht
  have hmax : t.maxInv := maxInv_foldl_insert rules .nil trivial
  have hperm : t.toList.Perm rules := by
    simpa [RangeTree.toList] using toList_foldl_insert rules .nil
  have hF : t.find_intersections q
      = (t.toList.filter (fun p => ranges_overlap p.source q)).map (interMap q) :=
    find_intersections_characterization t q hmax
  set L := (t.find_intersections q).insertionSort
      (fun a b => a.source.start ≤ b.source.start) with hLdef
  have hLperm : L.Perm (t.find_intersections q) := List.perm_insertionSort _ _
  have hmemL : ∀ z ∈ L, ∃ p, p ∈ rules ∧ ranges_overlap p.source q = true
      ∧ z = interMap q p := by
    intro z hz
    have hz2 : z ∈ t.find_intersections q := hLperm.mem_iff.mp hz
    rw [hF] at hz2
    obtain ⟨p, hp, hpz⟩ := List.mem_map.mp hz2
    obtain ⟨hpmem, hpov⟩ := List.mem_filter.mp hp
    exact ⟨p, hperm.mem_iff.mp hpmem, hpov, hpz.symm⟩
  have hfacts : ∀ z ∈ L, q.start ≤ z.source.start ∧ z.source.start < z.source.stop
      ∧ z.source.stop ≤ q.stop ∧ rlen z.target = rlen z.source := by
    intro z hz
    obtain ⟨p, hp, hov, rfl⟩ := hmemL z hz
    have hs := hstrict p hp hov
    refine ⟨le_max_right _ _, hs, min_le_right _ _, ?_⟩
    simp only [interMap, rlen]
    omega
  have hdisjL : L.Pairwise (fun a b => srcDisj a b) := by
    have hsymm : ∀ {x y : RangePair}, srcDisj x y → srcDisj y x := fun h => h.symm
    have P1 : t.toList.Pairwise srcDisj :=
      (List.Perm.pairwise_iff hsymm hperm).mpr hdisj
    have P2 : (t.toList.filter (fun p => ranges_overlap p.source q)).Pairwise srcDisj :=
      List.Pairwise.sublist (List.filter_sublist _) P1
    have P3 : (t.find_intersections q).Pairwise srcDisj := by
      rw [hF]
      exact List.Pairwise.map (interMap q) (fun a b hab => interMap_srcDisj q a b hab) P2
    exact (List.Perm.pairwise_iff hsymm hLperm).mpr P3
  have hsortL : L.Pairwise (fun a b => a.source.start ≤ b.source.start) := by
    haveI : IsTotal RangePair (fun a b => a.source.start ≤ b.source.start) :=
      ⟨fun a b => Nat.le_total _ _⟩
    haveI : IsTrans RangePair (fun a b => a.source.start ≤ b.source.start) :=
      ⟨fun a b c h1 h2 => Nat.le_trans h1 h2⟩
    exact List.sorted_insertionSort _ _
  have hchain : List.Chain' (fun a b => a.source.stop ≤ b.source.start) L := by
    refine List.Pairwise.chain' ?_
    refine (hsortL.and hdisjL).imp_of_mem ?_
    intro a b ha hb hab
    have hfa := hfacts a ha
    have hfb := hfacts b hb
    obtain ⟨h1, h2⟩ := hab
    rcases (show a.source.stop ≤ b.source.start ∨ b.source.stop ≤ a.source.start from h2)
      with h2 | h2
    · exact h2
    · omega
  have hLne : L ≠ [] := by
    obtain ⟨p, hp, hov⟩ := hsome
    have h1 : p ∈ t.toList := hperm.mem_iff.mpr hp
    have h2 : p ∈ t.toList.filter (fun p => ranges_overlap p.source q) :=
      List.mem_filter.mpr ⟨h1, hov⟩
    have h3 : interMap q p ∈ t.find_intersections q := by
      rw [hF]; exact List.mem_map_of_mem _ h2
    exact List.ne_nil_of_mem (hLperm.mem_iff.mpr h3)
  obtain ⟨x, xs, hxxs⟩ := List.exists_cons_of_ne_nil hLne
  obtain ⟨z, hz⟩ := Option.isSome_iff_exists.mp (List.getLast?_isSome.mpr hLne)
  have hzmem : z ∈ L := List.mem_of_mem_getLast? hz
  have hxmem : x ∈ L := by rw [hxxs]; simp
  have hfx := hfacts x hxmem
  have hfz := hfacts z hzmem
  have hmid : Covers x.source.start (emitSources L) z.source.stop := by
    rw [hxxs]
    exact emitSources_covers x xs z (hxxs ▸ hz) (hxxs ▸ hchain)
      (fun p hp => le_of_lt (hfacts p (hxxs ▸ hp)).2.1)
  have hout : (RangeMap.new src tgt rules).ranges_for q
      = (if q.start < x.source.start then [⟨q.start, x.source.start⟩] else []) ++
        (emitTargets L ++
         (if z.source.stop < q.stop then [⟨z.source.stop, q.stop⟩] else [])) := by
    rw [hxxs]
    exact ranges_for_eq (RangeMap.new src tgt rules) q x z xs
      (hLdef.symm.trans hxxs) (hxxs ▸ hz)
  refine ⟨(if q.start < x.source.start then [⟨q.start, x.source.start⟩] else []) ++
      (emitSources L ++
       (if z.source.stop < q.stop then [⟨z.source.stop, q.stop⟩] else [])), ?_, ?_⟩
  · have hlead : Covers q.start
        (if q.start < x.source.start then [⟨q.start, x.source.start⟩] else [])
        x.source.start := by
      split
      next hq => exact Covers.cons ⟨q.start, x.source.start⟩ [] _ (le_of_lt hq) (Covers.nil _)
      next hq =>
        have : q.start = x.source.start := le_antisymm hfx.1 (Nat.le_of_not_lt hq)
        exact this ▸ Covers.nil q.start
    have htrail : Covers z.source.stop
        (if z.source.stop < q.stop then [⟨z.source.stop, q.stop⟩] else []) q.stop := by
      split
      next hq => exact Covers.cons ⟨z.source.stop, q.stop⟩ [] _ (le_of_lt hq) (Covers.nil _)
      next hq =>
        have : z.source.stop = q.stop := le_antisymm hfz.2.2.1 (Nat.le_of_not_lt hq)
        exact this ▸ Covers.nil z.source.stop
    exact hlead.append (hmid.append htrail)
  · rw [hout]
    simp only [List.map_append]
    rw [emitTargets_lens L (fun p hp => (hfacts p hp).2.2.2)]

/-!  Lemmas about the scalar path and the pipeline walks. -/

theorem wellKeyed_default : WellKeyed NumberMapper.default := by
  intro k rm h
  simp [NumberMapper.default] at h

theorem wellKeyed_insert (nm : NumberMapper) (m : RangeMap) (h : WellKeyed nm) :
    WellKeyed (nm.insert m) := by
  intro k rm hk
  simp only [NumberMapper.insert] at hk
  split at hk
  next heq =>
    injection hk with hk
    subst hk
    exact heq.symm
  next => exact h _ _ hk

theorem value_for_kind (m : RangeMap) (v : Value) (hsk : v.kind = m.source_kind) :
    ∃ n, m.value_for v = some ⟨m.target_kind, n⟩ := by
  simp only [RangeMap.value_for, hsk, ne_eq, not_true_eq_false, if_false]
  cases m.ranges.find? (fun p => p.source.start ≤ v.number && v.number < p.source.stop) with
  | none => exact ⟨v.number, rfl⟩
  | some p => exact ⟨_, rfl⟩

theorem mapRun_deadEnds (nm : NumberMapper) (hkeys : WellKeyed nm) :
    ∀ (fuel : Nat) (v : Value) (target_kind : ValueKind) (res : Option Value),
      nm.mapRun fuel v target_kind = some res →
      ((res = none ↔ nm.deadEnds fuel v.kind target_kind = some true)
       ∧ (∀ w, res = some w → w.kind = target_kind)) := by
  intro fuel
  induction fuel with
  | zero =>
    intro v target_kind res h
    by_cases hkt : v.kind = target_kind
    · simp only [NumberMapper.mapRun, hkt, if_pos] at h
      injection h with h
      subst h
      refine ⟨by simp [NumberMapper.deadEnds, hkt], ?_⟩
      intro w hw
      injection hw with hw
      subst hw
      exact hkt
    · simp [NumberMapper.mapRun, hkt] at h
  | succ f ih =>
    intro v target_kind res h
    by_cases hkt : v.kind = target_kind
    · simp only [NumberMapper.mapRun, hkt, if_pos] at h
      injection h with h
      subst h
      refine ⟨by simp [NumberMapper.deadEnds, hkt], ?_⟩
      intro w hw
      injection hw with hw
      subst hw
      exact hkt
    · simp only [NumberMapper.mapRun, hkt, if_neg, not_false_eq_true] at h
      cases hm : nm.maps_by_source v.kind with
      | none =>
        rw [hm] at h
        injection h with h
        subst h
        refine ⟨by simp [NumberMapper.deadEnds, hkt, hm], ?_⟩
        intro w hw
        exact absurd hw (by simp)
      | some rm =>
        obtain ⟨n, hvf⟩ := value_for_kind rm v (hkeys _ _ hm).symm
        rw [hm] at h
        simp only [hvf] at h
        have hrec := ih ⟨rm.target_kind, n⟩ target_kind res h
        refine ⟨?_, hrec.2⟩
        rw [hrec.1]
        have : nm.deadEnds (f + 1) v.kind target_kind
            = nm.deadEnds f rm.target_kind target_kind := by
          simp [NumberMapper.deadEnds, hkt, hm]
        rw [this]

theorem mapRangeRun_missing_step (nm : NumberMapper) (f : Nat) (rs : List Interval)
    (k t : ValueKind) (hne : ¬(rs = [] ∨ k = t)) (hm : nm.maps_by_source k = none) :
    nm.mapRangeRun (f + 1) rs k t = nm.mapRangeRun f rs k t := by
  conv_lhs => rw [NumberMapper.mapRangeRun]
  rw [if_neg hne, hm]

/-!  The claims. -/

/-- Claim C9: `ranges_overlap a b` is true exactly when
`a.start ≤ b.stop ∧ b.start ≤ a.stop` — in particular boundary-touching
well-formed ranges with `a.stop = b.start` count as overlapping — and
`range_intersection` is defined exactly when `ranges_overlap` holds, in which
case it is `[max of starts, min of stops)`. -/
theorem claim9_overlap_intersect (a b : Interval) :
    (ranges_overlap a b = true ↔ (a.start ≤ b.stop ∧ b.start ≤ a.stop))
    ∧ (a.stop = b.start → a.start ≤ a.stop → b.start ≤ b.stop →
        ranges_overlap a b = true)
    ∧ range_intersection a b
        = (if ranges_overlap a b then some ⟨max a.start b.start, min a.stop b.stop⟩
           else none) := by
  refine ⟨ranges_overlap_iff a b, ?_, rfl⟩
  intro h1 h2 h3
  rw [ranges_overlap_iff]
  omega

/-- Witness for C9 at a boundary-touching pair. -/
theorem claim9_witness : ranges_overlap ⟨1, 2⟩ ⟨2, 5⟩ = true :=
  (claim9_overlap_intersect ⟨1, 2⟩ ⟨2, 5⟩).2.1 rfl (by decide) (by decide)

/-- Claim C8: in every tree built by creating a root from one rule followed by
any sequence of inserts, each node's `max` equals the maximum `source.stop`
over the rules of its subtree, and the BST ordering on `source.start` holds
(left strictly smaller, right greater or equal). -/
theorem claim8_invariants (r0 : RangePair) (rs : List RangePair) :
    (buildTree r0 rs).maxInv ∧ (buildTree r0 rs).bstInv :=
  ⟨maxInv_foldl_insert rs _ (maxInv_new r0), bstInv_foldl_insert rs _ (bstInv_new r0)⟩

/-- Claim C5: on every built tree, `find_intersections` returns exactly one
sub-interval per stored rule whose source (loosely) overlaps the query — the
intersection mapped through the rule's constant offset — and nothing from any
non-overlapping rule; in particular the `max` pruning never skips an
overlapping rule. -/
theorem claim5_find_intersections (r0 : RangePair) (rs : List RangePair) (q : Interval) :
    (buildTree r0 rs).find_intersections q
      = ((buildTree r0 rs).toList.filter (fun p => ranges_overlap p.source q)).map
          (interMap q) :=
  find_intersections_characterization _ q (maxInv_foldl_insert rs _ (maxInv_new r0))

/-- Claim C10: on every built tree, `find_overlapping` returns a stored,
genuinely overlapping rule whenever it returns anything, and it returns
something if and only if some stored rule overlaps the query — the descent
that abandons the right subtree loses nothing. -/
theorem claim10_find_overlapping (r0 : RangePair) (rs : List RangePair) (qp : RangePair) :
    (∀ p, (buildTree r0 rs).find_overlapping qp = some p →
        p ∈ (buildTree r0 rs).toList ∧ ranges_overlap p.source qp.source = true)
    ∧ (((buildTree r0 rs).find_overlapping qp).isSome = true
        ↔ ∃ p ∈ (buildTree r0 rs).toList, ranges_overlap p.source qp.source = true) := by
  have hmax : (buildTree r0 rs).maxInv := maxInv_foldl_insert rs _ (maxInv_new r0)
  have hbst : (buildTree r0 rs).bstInv := bstInv_foldl_insert rs _ (bstInv_new r0)
  constructor
  · intro p hp
    exact find_overlapping_sound _ _ _ hp
  · constructor
    · intro hs
      obtain ⟨p, hp⟩ := Option.isSome_iff_exists.mp hs
      obtain ⟨h1, h2⟩ := find_overlapping_sound _ _ _ hp
      exact ⟨p, h1, h2⟩
    · rintro ⟨p, hp, hov⟩
      rcases ho : (buildTree r0 rs).find_overlapping qp with _ | p2
      · have hfalse := find_overlapping_complete _ _ hmax hbst ho p hp
        rw [hov] at hfalse
        exact absurd hfalse (by simp)
      · rfl

/-- Witness for C10 on a one-rule tree and an overlapping query. -/
theorem claim10_witness :
    RangePair.mk ⟨1, 5⟩ ⟨11, 15⟩ ∈ (buildTree ⟨⟨1, 5⟩, ⟨11, 15⟩⟩ []).toList
    ∧ ranges_overlap ⟨1, 5⟩ ⟨2, 3⟩ = true :=
  (claim10_find_overlapping ⟨⟨1, 5⟩, ⟨11, 15⟩⟩ [] ⟨⟨2, 3⟩, ⟨0, 0⟩⟩).1 _ rfl

/-- Claim C6: `value_for` fails exactly on category mismatch; otherwise it
applies the offset of a rule containing the number if one exists, and falls
back to identity passthrough into the target category if none does. -/
theorem claim6_value_for (m : RangeMap) (v : Value) :
    (m.value_for v = none ↔ v.kind ≠ m.source_kind)
    ∧ (v.kind = m.source_kind →
        ((∀ p ∈ m.ranges, ¬(p.source.start ≤ v.number ∧ v.number < p.source.stop)) →
            m.value_for v = some ⟨m.target_kind, v.number⟩)
        ∧ ((∃ p ∈ m.ranges, p.source.start ≤ v.number ∧ v.number < p.source.stop) →
            ∃ p ∈ m.ranges, (p.source.start ≤ v.number ∧ v.number < p.source.stop)
              ∧ m.value_for v
                  = some ⟨m.target_kind, p.target.start + (v.number - p.source.start)⟩)) := by
  have hiff : m.value_for v = none ↔ v.kind ≠ m.source_kind := by
    by_cases hk : v.kind = m.source_kind
    · obtain ⟨n, hn⟩ := value_for_kind m v hk
      rw [hn]
      simp [hk]
    · simp [RangeMap.value_for, hk]
  refine ⟨hiff, fun hk => ⟨?_, ?_⟩⟩
  · intro hall
    have hfind : m.ranges.find?
        (fun p => p.source.start ≤ v.number && v.number < p.source.stop) = none := by
      apply List.find?_eq_none.mpr
      intro p hp
      have := hall p hp
      simp only [Bool.and_eq_true, decide_eq_true_eq]
      tauto
    simp [RangeMap.value_for, hk, hfind]
  · rintro ⟨p, hp, hc⟩
    have hs : (m.ranges.find?
        (fun p => p.source.start ≤ v.number && v.number < p.source.stop)).isSome = true := by
      rw [List.find?_isSome]
      exact ⟨p, hp, by simp [hc.1, hc.2]⟩
    obtain ⟨p2, hfind⟩ := Option.isSome_iff_exists.mp hs
    have hmem := List.mem_of_find?_eq_some hfind
    have hpred := List.find?_some hfind
    simp only [Bool.and_eq_true, decide_eq_true_eq] at hpred
    refine ⟨p2, hmem, hpred, ?_⟩
    simp [RangeMap.value_for, hk, hfind]

/-- Witness for C6: identity passthrough on the single-rule map at a number no
rule contains. -/
theorem claim6_witness :
    mapSingle.value_for ⟨ValueKind.seed, 99⟩ = some ⟨ValueKind.soil, 99⟩ :=
  ((claim6_value_for mapSingle ⟨ValueKind.seed, 99⟩).2 rfl).1 (by decide)

/-- Claim C7: on a well-keyed pipeline, whenever the scalar walk of
`NumberMapper::map` exits within `fuel` iterations, it returns nothing exactly
when the category walk hits a category without a registered map before the
target, and any returned value carries the target category. -/
theorem claim7_map_dead_end (nm : NumberMapper) (fuel : Nat) (v : Value)
    (target_kind : ValueKind) (res : Option Value) (hkeys : WellKeyed nm)
    (h : nm.mapRun fuel v target_kind = some res) :
    (res = none ↔ nm.deadEnds fuel v.kind target_kind = some true)
    ∧ (∀ w, res = some w → w.kind = target_kind) :=
  mapRun_deadEnds nm hkeys fuel v target_kind res h

/-- Witness for C7 on the one-map pipeline: `seed 1` reaches `soil 4`. -/
theorem claim7_witness :
    nmSingle.mapRun 1 ⟨ValueKind.seed, 1⟩ ValueKind.soil
        = some (some ⟨ValueKind.soil, 4⟩)
    ∧ (Value.mk ValueKind.soil 4).kind = ValueKind.soil := by
  refine ⟨by decide, ?_⟩
  exact (claim7_map_dead_end nmSingle 1 ⟨ValueKind.seed, 1⟩ ValueKind.soil
      (some ⟨ValueKind.soil, 4⟩) (wellKeyed_insert _ _ wellKeyed_default)
      (by decide)).2 _ rfl

/-- Claim C4 (refuted by the code): `map_range` is claimed to terminate, in
particular when some category of the walk has no registered map; but the
source's `else { continue }` retries with unchanged state, so on the empty
pipeline the loop never exits: for every amount of fuel the run is still
going. -/
theorem claim4_diverges (fuel : Nat) :
    NumberMapper.default.mapRangeRun fuel [⟨0, 5⟩] ValueKind.seed ValueKind.location
      = none := by
  induction fuel with
  | zero => rfl
  | succ f ih =>
    rw [mapRangeRun_missing_step NumberMapper.default f [⟨0, 5⟩] .seed .location
      (by simp) rfl]
    exact ih

/-- Claim C2 (refuted by the code): with an empty rule list the claim promises
the single identity interval `[3,7)`; the code returns the empty list,
dropping the query entirely. -/
theorem claim2_empty_map_eval :
    (RangeMap.new ValueKind.seed ValueKind.soil []).ranges_for ⟨3, 7⟩ = []
    ∧ (RangeMap.new ValueKind.seed ValueKind.soil []).ranges_for ⟨3, 7⟩
        ≠ [⟨3, 7⟩] := by
  exact ⟨rfl, by decide⟩

/-- Counterexample to C3 as stated: on the five-rule index of the repository's
own test, the rule with source `255..260` lies inside the query `120..300`
under the half-open overlap rule, so `find_intersections` does return a
sub-interval derived from it, and the gap-fill is not a single `200..300`
interval. -/
theorem claim3_counterexample :
    RangePair.mk ⟨255, 260⟩ ⟨100, 105⟩ ∈ map3.range_tree.find_intersections ⟨120, 300⟩
    ∧ map3.ranges_for ⟨120, 300⟩ ≠ [⟨70, 150⟩, ⟨200, 300⟩] := by
  exact ⟨by decide, by decide⟩

/-- Claim C3 as amended: the query `120..300` on the five-rule index yields
the `120..200` portion of rule `100..200` mapped to `70..150`, the identity
gap `200..255`, the whole rule `255..260` mapped to `100..105` (that rule does
overlap the query), and the identity gap `260..300`; `find_intersections`
returns exactly the two overlapping rules' contributions. -/
theorem claim3_amended :
    map3.ranges_for ⟨120, 300⟩ = [⟨70, 150⟩, ⟨200, 255⟩, ⟨100, 105⟩, ⟨260, 300⟩]
    ∧ map3.range_tree.find_intersections ⟨120, 300⟩
        = [⟨⟨120, 200⟩, ⟨70, 150⟩⟩, ⟨⟨255, 260⟩, ⟨100, 105⟩⟩] := by
  exact ⟨by decide, by decide⟩

/-- Counterexample to C1 as stated: two disjoint rules, one merely touching
the query `[20,40)` at its boundary, make `ranges_for` emit total length `30`
for a query of length `20` (the empty boundary intersection sorts after the
real one, so the trailing gap-fill re-covers `20..40`). -/
theorem claim1_counterexample :
    sumLen (mapTouch.ranges_for ⟨20, 40⟩) = 30 ∧ rlen ⟨20, 40⟩ = 20
    ∧ (30 : Nat) ≠ 20 := by
  exact ⟨by decide, by decide, by decide⟩

/-- Claim C1 as amended: for every category map built from rules with pairwise
disjoint sources, and every query that at least one rule source overlaps,
where every (loosely) overlapping rule source overlaps strictly (no
boundary-touching and no empty intersections), the outputs of `ranges_for`
conserve total length and their lengths match, in order, a gapless ascending
decomposition of the query — ascending source order, no gaps, no overlaps. -/
theorem claim1_conservation (src tgt : ValueKind) (rules : List RangePair) (q : Interval)
    (hdisj : rules.Pairwise srcDisj)
    (hstrict : ∀ p ∈ rules, ranges_overlap p.source q = true →
        max p.source.start q.start < min p.source.stop q.stop)
    (hsome : ∃ p ∈ rules, ranges_overlap p.source q = true) :
    sumLen ((RangeMap.new src tgt rules).ranges_for q) = rlen q
    ∧ ∃ S : List Interval, Covers q.start S q.stop
        ∧ ((RangeMap.new src tgt rules).ranges_for q).map rlen = S.map rlen := by
  obtain ⟨S, hS, hmap⟩ := ranges_for_covers src tgt rules q hdisj hstrict hsome
  refine ⟨?_, S, hS, hmap⟩
  have h1 : sumLen ((RangeMap.new src tgt rules).ranges_for q) = sumLen S := by
    simp only [sumLen, hmap]
  rw [h1, hS.sumLen_eq]
  rfl

/-- Witness for the amended C1: one rule `10..20 → 110..120`, query `[5,15)`,
total output length `10`. -/
theorem claim1_conservation_witness :
    sumLen ((RangeMap.new ValueKind.seed ValueKind.soil
        [⟨⟨10, 20⟩, ⟨110, 120⟩⟩]).ranges_for ⟨5, 15⟩) = 10 :=
  (claim1_conservation ValueKind.seed ValueKind.soil [⟨⟨10, 20⟩, ⟨110, 120⟩⟩] ⟨5, 15⟩
    (by simp) (by decide) (by decide)).1

end Day5

